import Mathlib

/-!
Verification of the `shamir` Reed-Solomon / secret-sharing core.

This file is a shallow embedding, in Lean 4, of the Rust sources under
`src/`: the GF(2^8) field kernels (`finite_field.rs`), the polynomial
algebra (`polynomial.rs`), the matrix algebra (`matrix.rs`), the encoding
descriptor (`encoding.rs`), the chunker (`chunker.rs`) and the
Reed-Solomon encoders (`encoder.rs`).  Bytes are modelled as `Nat` values
(< 256 where it matters), wrapping u8 arithmetic is written out as `% 256`,
and fallible code (Rust `Result`, panics, out-of-bounds indexing) is
modelled with `Except String`.  A handful of functions that the encoder
calls but that are absent from `src/` (`cauchy_matrix`, `mul_vec`,
`total_chunks`, and the field-parameterised `Polynomial` operations) are
modelled from the specification; each such definition says so in its doc
comment.
-/

set_option maxRecDepth 100000
set_option maxHeartbeats 2000000

namespace Shamir

/-- GF(2^8) addition: `Field256::add` (finite_field.rs:40) is `x ^ y`. -/
def gfAdd (x y : Nat) : Nat := x ^^^ y

/-- One doubling step of the Russian-peasant multiplication
(finite_field.rs:101): `a = (a << 1) ^ (((a & 0x80) >> 7).wrapping_neg() & 0x1B)`,
on u8 (so the shift wraps modulo 256). -/
def shiftRed (a : Nat) : Nat :=
  ((a <<< 1) % 256) ^^^ (if a.testBit 7 then 27 else 0)

/-- The 8-iteration loop of `DirectField::mul` (finite_field.rs:85-104):
`result ^= (b & 1).wrapping_neg() & a; b >>= 1; if b == 0 break; a = shiftRed a`. -/
def mulLoop : Nat → Nat → Nat → Nat → Nat
  | 0, _, _, acc => acc
  | fuel + 1, a, b, acc =>
    let acc' := acc ^^^ (if b % 2 = 1 then a else 0)
    let b' := b / 2
    if b' = 0 then acc' else mulLoop fuel (shiftRed a) b' acc'

/-- Embeds `DirectField::mul`: Russian-peasant multiplication in GF(2^8). -/
def directMul (x y : Nat) : Nat := mulLoop 8 x y 0

/-- Accumulator-free companion of `mulLoop`, used only in proofs. -/
def mulPure : Nat → Nat → Nat → Nat
  | 0, _, _ => 0
  | fuel + 1, a, b =>
    (if b % 2 = 1 then a else 0) ^^^ mulPure fuel (shiftRed a) (b / 2)

/-- The brute-force search of the trait-default `Field256::inv`
(finite_field.rs:68-76): the first `i` in `1..=255` with `mul(i, x) == 1`.
The source's unreachable `assert!(false)` fall-through returns `zero()`. -/
def invSearch : Nat → Nat → Nat → Nat
  | 0, _, _ => 0
  | fuel + 1, i, x => if directMul i x = 1 then i else invSearch fuel (i + 1) x

/-- Model of `DirectField`'s `inv` (the trait default brute-force search). -/
def directInv (x : Nat) : Nat := invSearch 255 1 x

/-- The trait-default `Field256::exp` (finite_field.rs:57-63): repeated
multiplication, `result = 1; for _ in 0..y { result = mul(result, x) }`. -/
def defaultExp (mulF : Nat → Nat → Nat) (x y : Nat) : Nat :=
  (List.range y).foldl (fun r _ => mulF r x) 1

/-- A `Field256` capability: the operations the matrix and encoder code
calls through the trait (`add`/`sub` are static and shared, see `gfAdd`). -/
structure GF where
  mul : Nat → Nat → Nat
  inv : Nat → Nat
  exp : Nat → Nat → Nat

/-- The `DirectField` capability: `mul` is implemented, `inv` and `exp` are the trait
defaults. -/
def directGF : GF := ⟨directMul, directInv, defaultExp directMul⟩

/-! ### The ExpLogField tables (finite_field.rs:107-131)

`exp: [u8; 512]`, `log: [u8; 256]`, built from `DirectField`:
`for i in 0..=255 { exp[i] = x; exp[i+255] = x; log[x] = i; x = mul(x, 3) }`.
Note the loop runs 256 times, so `log[1]` is overwritten to 255 at `i = 255`.
-/

/-- The table-building loop of `ExpLogField::default`. -/
def elLoop : Nat → Nat → Nat → List Nat → List Nat → List Nat × List Nat
  | 0, _, _, e, l => (e, l)
  | fuel + 1, i, x, e, l =>
    elLoop fuel (i + 1) (directMul x 3) ((e.set i x).set (i + 255) x) (l.set x (i % 256))

/-- The `(exp, log)` tables of `ExpLogField`. -/
def elTables : List Nat × List Nat :=
  elLoop 256 0 1 (List.replicate 512 0) (List.replicate 256 0)

/-- Embeds `ExpLogField::mul` (finite_field.rs:134-141). -/
def expLogMul (x y : Nat) : Nat :=
  if x = 0 ∨ y = 0 then 0
  else elTables.1.getD (elTables.2.getD x 0 + elTables.2.getD y 0) 0

/-- Embeds `ExpLogField::div` (finite_field.rs:143-152); the `y == 0` branch
panics (`none`), and the index is `log x - log y + 255` in `i16`. -/
def expLogDiv (x y : Nat) : Option Nat :=
  if x = 0 then some 0
  else if y = 0 then none
  else some (elTables.1.getD (elTables.2.getD x 0 + 255 - elTables.2.getD y 0) 0)

/-- Embeds `ExpLogField::inv` (finite_field.rs:154-159). -/
def expLogInv (x : Nat) : Nat :=
  if x = 0 then 0 else elTables.1.getD (255 - elTables.2.getD x 0) 0

/-- Embeds `ExpLogField::exp` (finite_field.rs:161-170): note the `x == 0` test
precedes the `y == 0` test, and the index is `(log x * log y) % 256`. -/
def expLogExp (x y : Nat) : Nat :=
  if x = 0 then 0
  else if y = 0 then 1
  else elTables.1.getD (elTables.2.getD x 0 * elTables.2.getD y 0 % 256) 0

/-- The `ExpLogField` capability. -/
def expLogGF : GF := ⟨expLogMul, expLogInv, expLogExp⟩

/-! ### The TableField (finite_field.rs:173-223) -/

/-- The `mul[256][256]` table, bootstrapped from `DirectField`. -/
def tableMulT : List (List Nat) :=
  (List.range 256).map fun i => (List.range 256).map fun j => directMul i j

/-- The `inv[256]` table: `inv[0]` stays 0, `inv[i] = direct.inv(i)` for
`i` in `1..=255`. -/
def tableInvT : List Nat :=
  (List.range 256).map fun i => if i = 0 then 0 else directInv i

/-- Embeds `TableField::mul` (finite_field.rs:201-206). -/
def tableMul (x y : Nat) : Nat :=
  if x = 0 ∨ y = 0 then 0 else (tableMulT.getD x []).getD y 0

/-- Embeds `TableField::div` (finite_field.rs:208-215); `y == 0` panics (`none`)
but only after the `x == 0` early return. -/
def tableDiv (x y : Nat) : Option Nat :=
  if x = 0 then some 0
  else if y = 0 then none
  else some ((tableMulT.getD x []).getD (tableInvT.getD y 0) 0)

/-- Embeds `TableField::inv` (finite_field.rs:217-222). -/
def tableInv (x : Nat) : Nat :=
  if x = 0 then 0 else tableInvT.getD x 0

/-- The `TableField` capability: `mul`, `inv` implemented; `exp` is the
trait default (repeated multiplication by `TableField::mul`). -/
def tableGF : GF := ⟨tableMul, tableInv, defaultExp tableMul⟩

/-! ### The chunker (chunker.rs:60-83)

`chunked_with_default(chunk_size, default)` groups an iterator into
windows of `chunk_size`, extending the final short window with `default`.
An empty input yields no chunks.  (For `chunk_size = 0` the source's loop
would never fill a chunk and then underflow computing the padding; that
degenerate case is unreachable from the encoders, which require `k ≥ 1`.)
-/

/-- The push-until-full loop of `ChunkerDefault::next`, iterated to
exhaustion: `acc` is the window being filled; a full window is emitted, a
final short window is padded with `d`. -/
def chunkAcc (d k : Nat) (acc : List Nat) : List Nat → List (List Nat)
  | [] => if acc.isEmpty then [] else [acc ++ List.replicate (k - acc.length) d]
  | x :: xs =>
    if (acc ++ [x]).length = k then (acc ++ [x]) :: chunkAcc d k [] xs
    else chunkAcc d k (acc ++ [x]) xs

/-- Embeds `ChunkerDefault::next`, iterated to exhaustion. -/
def chunkedD (d k : Nat) (l : List Nat) : List (List Nat) := chunkAcc d k [] l

/-! ### Polynomials over the field (spec-modelled)

`encoder.rs` calls the field-parameterised operations
`Polynomial::interpolate(values, field)`, `Polynomial::interpolate_points(points, field)`
and `Polynomial::evaluate(x, field)`.  These are absent from `src/`
(the `polynomial.rs` present there is the integer-wrapping variant, embedded
further below), so they are modelled from the specification, §4.2:
Lagrange interpolation with all coefficient arithmetic in the field, and
evaluation as `Σ c_i · field.exp(x, i)`.  Coefficient lists are kept
untrimmed, matching `Polynomial::from_coefficients` (polynomial.rs:92-96),
which does not trim; evaluation is unaffected by trailing zeros.
-/

/-- Pointwise field addition of coefficient lists (polynomial `add`). -/
def polyAdd : List Nat → List Nat → List Nat
  | [], q => q
  | p, [] => p
  | a :: p, b :: q => gfAdd a b :: polyAdd p q

/-- Polynomial multiplication with field coefficient arithmetic:
coefficient `e` of the product is `Σ_a mul(p_a, q_(e-a))`. -/
def polyMulF (F : GF) (p q : List Nat) : List Nat :=
  if p.isEmpty ∨ q.isEmpty then []
  else
    (List.range (p.length + q.length - 1)).map fun e =>
      (List.range p.length).foldl
        (fun acc a =>
          if a ≤ e ∧ e - a < q.length then gfAdd acc (F.mul (p.getD a 0) (q.getD (e - a) 0))
          else acc)
        0

/-- Modelled from the spec: the Lagrange basis term
`y_i · Π_{j ≠ i} (x − x_j)/(x_i − x_j)` for `interpolate` (where `x_i = i`,
`x_j = j` as u8 values); in GF(2^8), `x − x_j` is the polynomial
`[x_j, 1]` and dividing by the constant `x_i − x_j = x_i ⊕ x_j` multiplies
both coefficients by its inverse. -/
def singleTermF (F : GF) (values : List Nat) (i : Nat) : List Nat :=
  if values.isEmpty then []
  else
    (values.enum.filter fun p => p.1 % 256 ≠ i % 256).foldl
      (fun term p =>
        let xj := p.1 % 256
        let invd := F.inv (gfAdd (i % 256) xj)
        polyMulF F term [F.mul xj invd, invd])
      [values.getD i 0]

/-- Modelled from the spec: `Polynomial::interpolate(values, field)` —
the sum of the Lagrange basis terms for every index of `values`
(equivalent to `interpolate_points` with `x_i = i`). -/
def interpolateF (F : GF) (values : List Nat) : List Nat :=
  (List.range values.length).foldl (fun acc i => polyAdd acc (singleTermF F values i)) []

/-- Modelled from the spec: the Lagrange basis term for
`interpolate_points`, with explicit x-coordinates. -/
def singleTermPts (F : GF) (points : List (Nat × Nat)) (i : Nat) : List Nat :=
  if points.isEmpty then []
  else
    let xi := (points.getD i (0, 0)).1 % 256
    (points.filter fun p => p.1 % 256 ≠ xi).foldl
      (fun term p =>
        let xj := p.1 % 256
        let invd := F.inv (gfAdd xi xj)
        polyMulF F term [F.mul xj invd, invd])
      [(points.getD i (0, 0)).2]

/-- Modelled from the spec: `Polynomial::interpolate_points(points, field)`. -/
def interpolatePtsF (F : GF) (points : List (Nat × Nat)) : List Nat :=
  (List.range points.length).foldl (fun acc i => polyAdd acc (singleTermPts F points i)) []

/-- Sum `Σ c_i · field.exp(x, i)` starting at exponent `e`. -/
def evalAux (F : GF) (x : Nat) : List Nat → Nat → Nat
  | [], _ => 0
  | c :: cs, e => gfAdd (F.mul c (F.exp x (e % 256))) (evalAux F x cs (e + 1))

/-- Modelled from the spec: `Polynomial::evaluate(x, field)` is
`Σ c_i · field.exp(x, i)` with field arithmetic throughout. -/
def evaluateF (F : GF) (p : List Nat) (x : Nat) : Nat := evalAux F x p 0

/-! ### The integer-wrapping polynomial of `src/polynomial.rs`

The `polynomial.rs` actually present in `src/` takes no field: its
arithmetic is wrapping u8 integer arithmetic (`wrapping_add`,
`wrapping_mul`, `wrapping_div`, `wrapping_pow`), and its `interpolate`
iterates `0..values.len() - 1`.  Embedded faithfully here.
-/

/-- Embeds `ops::Add for &Polynomial` (polynomial.rs:17-37): pointwise
`wrapping_add`, i.e. addition modulo 256. -/
def polyAddW : List Nat → List Nat → List Nat
  | [], q => q
  | p, [] => p
  | a :: p, b :: q => (a + b) % 256 :: polyAddW p q

/-- Embeds `ops::Mul for &Polynomial` (polynomial.rs:52-70): coefficient
convolution with `wrapping_mul`/`wrapping_add`. -/
def polyMulW (p q : List Nat) : List Nat :=
  if p.isEmpty ∨ q.isEmpty then []
  else
    (List.range (p.length + q.length - 1)).map fun e =>
      (List.range p.length).foldl
        (fun acc a =>
          if a ≤ e ∧ e - a < q.length then (acc + p.getD a 0 * q.getD (e - a) 0 % 256) % 256
          else acc)
        0

/-- Embeds `Polynomial::single_term` (polynomial.rs:99-132): the basis term built
with `wrapping_sub`, `wrapping_neg` and `wrapping_div` — i.e. u8 integer
division, not field division.  `zeroth_term = (-xj)/(xi - xj)` and
`first_term = 1/(xi - xj)`, all wrapping on u8. -/
def singleTermW (values : List Nat) (i : Nat) : List Nat :=
  if values.isEmpty then []
  else
    let xi := i % 256
    (values.enum.filter fun p => p.1 % 256 ≠ xi).foldl
      (fun term p =>
        let xj := p.1 % 256
        let denom := (xi + 256 - xj) % 256
        let zeroth := ((256 - xj) % 256) / denom
        let first := 1 / denom
        polyMulW term [zeroth, first])
      [values.getD i 0]

/-- Embeds `Polynomial::interpolate` (polynomial.rs:137-144): sums
`single_term(values, i)` for `i` in `0..values.len() - 1` — note the
exclusive upper bound drops the final index. -/
def interpolateW (values : List Nat) : List Nat :=
  if values.isEmpty then []
  else
    (List.range (values.length - 1)).foldl
      (fun acc i => polyAddW acc (singleTermW values (i % 256))) []

/-- Embeds `Polynomial::evaluate` (polynomial.rs:158-165):
`result += x.wrapping_pow(e) * c`, all wrapping on u8. -/
def evaluateW (p : List Nat) (x : Nat) : Nat :=
  p.enum.foldl (fun acc q => (acc + x ^ q.1 % 256 * q.2 % 256) % 256) 0

/-! ### Matrices (matrix.rs) -/

/-- A `rows × cols` matrix of field elements (matrix.rs:6-11). -/
structure Mat where
  rows : Nat
  cols : Nat
  mat : List (List Nat)
deriving DecidableEq, Repr

/-- Total double lookup used where the Rust indexing is in-bounds by
construction (all matrices built below have uniform row length). -/
def matGet (m : List (List Nat)) (i j : Nat) : Nat := (m.getD i []).getD j 0

/-- Rust indexing where the bound is load-bearing: `mat[i][j]` panics when
out of bounds, modelled as an error. -/
def readEntry (m : List (List Nat)) (i j : Nat) : Except String Nat :=
  match m[i]? with
  | none => .error "index out of bounds"
  | some row =>
    match row[j]? with
    | none => .error "index out of bounds"
    | some v => .ok v

/-- Embeds `Matrix::zero` (matrix.rs:79-87). -/
def Mat.zero (rows cols : Nat) : Mat :=
  ⟨rows, cols, List.replicate rows (List.replicate cols 0)⟩

/-- Embeds `Matrix::identity` (matrix.rs:89-100). -/
def Mat.identity (n : Nat) : Mat :=
  ⟨n, n, (List.range n).map fun i => (List.range n).map fun j => if i = j then 1 else 0⟩

/-- Embeds `Matrix::try_from` (matrix.rs:53-76): fails on 0 rows or 0 cols. -/
def tryFrom (elems : List (List Nat)) : Except String Mat :=
  if elems.length = 0 then .error "Cannot have a matrix with 0 rows"
  else if (elems.headD []).length = 0 then .error "Cannot have a matrix with 0 cols"
  else .ok ⟨elems.length, (elems.headD []).length, elems⟩

/-- Embeds `Matrix::mul` (matrix.rs:102-117): `res[i][j] = Σ_t add(mul(a[i][t], b[t][j]))`
(the source asserts `self.cols == other.rows`; every call below satisfies it). -/
def Mat.mul (a b : Mat) (F : GF) : Mat :=
  ⟨a.rows, b.cols,
    (List.range a.rows).map fun i =>
      (List.range b.cols).map fun j =>
        (List.range a.cols).foldl
          (fun acc t => gfAdd acc (F.mul (matGet a.mat i t) (matGet b.mat t j))) 0⟩

/-- Embeds `Matrix::swap_row` (matrix.rs:119-123).  The source swaps two local
references — `let (mut x, mut y) = (&self.mat[to_row], &self.mat[from_row]);
std::mem::swap(&mut x, &mut y)` — which leaves the stored rows unchanged,
so the embedding is the identity on the matrix. -/
def swapRow (m : Mat) (_fromRow _toRow : Nat) : Mat := m

/-- Embeds `Matrix::scale_row` (matrix.rs:125-130). -/
def scaleRow (m : Mat) (row s : Nat) (F : GF) : Mat :=
  { m with mat := m.mat.set row ((List.range m.cols).map fun t => F.mul (matGet m.mat row t) s) }

/-- Embeds `Matrix::add_scaled_row` (matrix.rs:132-144):
`mat[to][i] = add(mat[to][i], mul(mat[from][i], scale))` for `i < cols`. -/
def addScaledRow (m : Mat) (fromRow toRow s : Nat) (F : GF) : Mat :=
  { m with
    mat := m.mat.set toRow ((List.range m.cols).map fun t =>
      gfAdd (matGet m.mat toRow t) (F.mul (matGet m.mat fromRow t) s)) }

/-- Embeds `Matrix::augment_with_identity` (matrix.rs:146-154). -/
def augment (m : Mat) : Mat :=
  ⟨m.rows, m.cols * 2,
    m.mat.enum.map fun p => p.2 ++ (List.range m.cols).map fun j => if p.1 = j then 1 else 0⟩

/-- The pivot-search loop of `Matrix::invert` (matrix.rs:178-183): for
`j` in `i..rows`, read `self.mat[j][i]` (which can go out of bounds when
`i ≥ self.cols`) and on the first nonzero entry perform the (no-op)
`swap_row` and break. -/
def pivotScan (self : Mat) (i : Nat) : List Nat → Except String Mat
  | [] => .ok self
  | j :: js => do
    let v ← readEntry self.mat j i
    if v ≠ 0 then .ok (swapRow self i j) else pivotScan self i js

/-- The elimination loop under the pivot (matrix.rs:192-196). -/
def elimBelow (F : GF) (i : Nat) : Mat → List Nat → Except String Mat
  | res, [] => .ok res
  | res, j :: js => do
    let v ← readEntry res.mat j i
    elimBelow F i (if v ≠ 0 then addScaledRow res i j v F else res) js

/-- One iteration of the upper-triangular reduction of `Matrix::invert`
(matrix.rs:176-197): pivot scan on the original matrix, singularity check
on `res[i][i]`, scaling, elimination below. -/
def upperStep (self : Mat) (F : GF) (res : Mat) (i : Nat) : Except String Mat := do
  let _ ← pivotScan self i (List.range' i (self.rows - i))
  let p ← readEntry res.mat i i
  if p = 0 then .error "The matrix is singular and cannot be inverted."
  else
    elimBelow F i (if p ≠ 1 then scaleRow res i (F.inv p) F else res)
      (List.range' (i + 1) (self.rows - (i + 1)))

/-- The upper-triangular reduction over all pivots. -/
def upperLoop (self : Mat) (F : GF) : Mat → List Nat → Except String Mat
  | res, [] => .ok res
  | res, i :: is => do
    let res' ← upperStep self F res i
    upperLoop self F res' is

/-- The inner loop of the lower-triangular reduction (matrix.rs:200-204):
for `j` in `0..i`, `res.add_scaled_row(i, j, res.mat[j][i])`. -/
def lowerInner (F : GF) (i : Nat) : Mat → List Nat → Except String Mat
  | res, [] => .ok res
  | res, j :: js => do
    let v ← readEntry res.mat j i
    lowerInner F i (addScaledRow res i j v F) js

/-- The lower-triangular reduction over `i` in `(0..rows).rev()`. -/
def lowerLoop (F : GF) : Mat → List Nat → Except String Mat
  | res, [] => .ok res
  | res, i :: is => do
    let res' ← lowerInner F i res (List.range i)
    lowerLoop F res' is

/-- Embeds `Matrix::invert` (matrix.rs:171-218): Gauss-Jordan on the matrix
augmented with the identity, returning the right half. -/
def Mat.invert (m : Mat) (F : GF) : Except String Mat := do
  let res := augment m
  let res ← upperLoop m F res (List.range m.rows)
  let res ← lowerLoop F res (List.range m.rows).reverse
  .ok ⟨m.rows, m.cols,
    (List.range m.rows).map fun i =>
      (List.range m.cols).map fun j => matGet res.mat i (j + m.cols)⟩

/-- Embeds `VandermondeMatrix` (matrix.rs:221-237), imported by the encoder as
`vandermonde_matrix`: row `i` holds `field.exp((start + i) as u8, j as u8)`
for `j < cols`. -/
def vandMat (start rows cols : Nat) (F : GF) : Except String Mat :=
  tryFrom ((List.range rows).map fun i =>
    (List.range cols).map fun j => F.exp ((start + i) % 256) (j % 256))

/-- Embeds `PartialVandermondeMatrix` (matrix.rs:239-254), imported by the
encoder as `partial_vandermonde_matrix`: the rows of
`vandermonde(0, ·, cols)` at the true positions of the mask. -/
def partialVandMat (valid : List Bool) (cols : Nat) (F : GF) : Except String Mat :=
  tryFrom ((valid.enum.filter fun p => p.2).map fun p =>
    (List.range cols).map fun j => F.exp (p.1 % 256) (j % 256))

/-- Modelled from the spec: `cauchy_matrix(start, rows, cols, field)` is
imported by encoder.rs but absent from src.  Per §4.3, entry `[i][j]` is
`field.inv(field.add(x_i, y_j))` with `x_i` in `[start, start + rows)` and
`y_j` in the disjoint range `[start + rows, start + rows + cols)`. -/
def cauchyMat (start rows cols : Nat) (F : GF) : Except String Mat :=
  tryFrom ((List.range rows).map fun i =>
    (List.range cols).map fun j =>
      F.inv (gfAdd ((start + i) % 256) ((start + rows + j) % 256)))

/-- Modelled from the spec: `Matrix::mul_vec(a, x, out, field)` is called
by encoder.rs but absent from src.  Per §4.3 it is the matrix-vector
product into a preallocated buffer: `out[i] = Σ_j mul(a[i][j], x[j])`. -/
def mulVec (m : Mat) (x : List Nat) (F : GF) : List Nat :=
  m.mat.map fun row => (row.zip x).foldl (fun acc p => gfAdd acc (F.mul p.1 p.2)) 0

/-! ### The encoding descriptor (encoding.rs) -/

/-- Embeds `Encoding` (encoding.rs:5-8): `data_chunks` and `code_chunks`. -/
structure Encoding where
  data : Nat
  code : Nat
deriving DecidableEq, Repr

/-- Modelled from the spec: `Encoding::total_chunks` is called by
encoder.rs but absent from src; per §3 the column count is `k + m`. -/
def Encoding.total (e : Encoding) : Nat := e.data + e.code

/-- The characters of the mandatory prefix of an encoding string. -/
def rsTag : List Char := ['r', 's', '=']

/-- Rust's `str::split('.')`: the list of (possibly empty) pieces between
dots, always at least one piece. -/
def splitDot : List Char → List (List Char)
  | [] => [[]]
  | c :: rest =>
    if c = '.' then [] :: splitDot rest
    else
      match splitDot rest with
      | [] => [[c]]
      | p :: ps => (c :: p) :: ps

/-- Model of `char::to_digit(10)`. -/
def digitVal (c : Char) : Option Nat :=
  if '0' ≤ c ∧ c ≤ '9' then some (c.toNat - 48) else none

/-- The digit loop of Rust's `u8::from_str` for a non-negative sign:
`acc = acc.checked_mul(10)?; acc = acc.checked_add(d)?`. -/
def parsePosAux : Nat → List Char → Option Nat
  | acc, [] => some acc
  | acc, c :: cs =>
    match digitVal c with
    | none => none
    | some d =>
      let m := acc * 10
      if 255 < m then none
      else if 255 < m + d then none
      else parsePosAux (m + d) cs

/-- The digit loop of Rust's `u8::from_str` after a `-` sign:
`acc = acc.checked_mul(10)?; acc = acc.checked_sub(d)?`; on an unsigned
type this only succeeds while every digit is 0. -/
def parseNegAux : Nat → List Char → Option Nat
  | acc, [] => some acc
  | acc, c :: cs =>
    match digitVal c with
    | none => none
    | some d =>
      let m := acc * 10
      if 255 < m then none
      else if m < d then none
      else parseNegAux (m - d) cs

/-- Rust's `u8::from_str`: an optional `+`/`-` sign followed by at least
one decimal digit, with u8 overflow checks. -/
def parseU8 : List Char → Option Nat
  | [] => none
  | c :: rest =>
    if c = '+' then if rest.isEmpty then none else parsePosAux 0 rest
    else if c = '-' then if rest.isEmpty then none else parseNegAux 0 rest
    else parsePosAux 0 (c :: rest)

/-- Embeds `Encoding::from_str` (encoding.rs:16-40): require the `rs=` prefix,
split the remainder on `.`, parse each piece as a u8, and accept exactly
two parsed pieces whose `checked_add` does not overflow a u8. -/
def Encoding.fromStr (s : List Char) : Except String Encoding :=
  if s.take 3 = rsTag then
    match (splitDot (s.drop 3)).map parseU8 with
    | [some d, some c] =>
      if d + c ≤ 255 then .ok ⟨d, c⟩
      else .error "Total number of chunks must be less than 256."
    | _ => .error "Chunks must be specified in the form m.n where m and n are integers."
  else .error "Encodings must start with rs="

/-! ### The Reed-Solomon encoders (encoder.rs) -/

/-- Embeds `RSStream` (encoder.rs:12-24). -/
structure RSStream where
  length : Nat
  encoding : Encoding
  codes : List (List Nat)
  valid : List Bool
deriving DecidableEq, Repr

/-- Embeds `RSStream::empty` (encoder.rs:27-34). -/
def RSStream.empty (e : Encoding) : RSStream := ⟨0, e, [], []⟩

/-- Embeds `LagrangeInterpolationEncoder::encode_bytes` (encoder.rs:53-94):
interpolate each k-chunk, copy the data symbols verbatim and evaluate the
polynomial at the code columns. -/
def LagrangeInterpolationEncoder.encodeBytes (enc : Encoding) (F : GF) (bytes : List Nat) :
    Except String RSStream :=
  if bytes.length = 0 then .ok (RSStream.empty enc)
  else
    .ok ⟨bytes.length, enc,
      (chunkedD 0 enc.data bytes).map fun chunk =>
        let p := interpolateF F chunk
        (List.range enc.total).map fun b =>
          if b < enc.data then chunk.getD b 0 else evaluateF F p (b % 256),
      []⟩

/-- Embeds `LagrangeInterpolationEncoder::decode_bytes` (encoder.rs:96-156). -/
def LagrangeInterpolationEncoder.decodeBytes (stream : RSStream) (F : GF) :
    Except String (List Nat) :=
  let k := stream.encoding.data
  if stream.length = 0 then .ok []
  else if (stream.valid.filter id).length < k then .error "Too many erasures to recover"
  else if (stream.valid.take k).all id then
    .ok ((List.range stream.length).map fun i => matGet stream.codes (i / k) (i % k))
  else
    let validIdx := ((stream.valid.enum.filter fun p => p.2).map fun p => p.1).take k
    let rows := stream.length / k
    .ok (List.flatten ((List.range rows).map fun row =>
      let pts := validIdx.map fun col => (col % 256, matGet stream.codes row col)
      let p := interpolatePtsF F pts
      (List.range k).map fun col => evaluateF F p (col % 256)))

/-- Embeds `encode_bytes_matrix` (encoder.rs:159-192): each stripe is the chunk's
k data symbols followed by the m symbols of `generator · chunk`. -/
def encodeBytesMatrix (enc : Encoding) (generator : Mat) (F : GF) (bytes : List Nat) :
    Except String RSStream :=
  .ok ⟨bytes.length, enc,
    (chunkedD 0 enc.data bytes).map fun chunk =>
      chunk.take enc.data ++ (mulVec generator chunk F).take enc.code,
    []⟩

/-- Embeds `decode_bytes_matrix` (encoder.rs:194-228): for each of
`length / k` rows, gather the symbols at the valid indices and multiply by
the recovery matrix. -/
def decodeBytesMatrix (stream : RSStream) (generator : Mat) (validIdx : List Nat) (F : GF) :
    Except String (List Nat) :=
  let k := stream.encoding.data
  let rows := stream.length / k
  .ok (List.flatten ((List.range rows).map fun i =>
    let chunk := validIdx.map fun j => matGet stream.codes i j
    (mulVec generator chunk F).take k))

/-- Embeds `VandermondeEncoder::encode_bytes` (encoder.rs:238-264). -/
def VandermondeEncoder.encodeBytes (enc : Encoding) (F : GF) (bytes : List Nat) :
    Except String RSStream :=
  if bytes.length = 0 then .ok (RSStream.empty enc)
  else do
    let v ← vandMat 0 enc.data enc.data F
    let inverted ← v.invert F
    let g ← vandMat enc.data enc.code enc.data F
    encodeBytesMatrix enc (g.mul inverted F) F bytes

/-- Embeds `VandermondeEncoder::decode_bytes` (encoder.rs:266-324): note the
partial Vandermonde matrix is built from the whole mask (not just the
first k valid rows), and the fast path is commented out in the source. -/
def VandermondeEncoder.decodeBytes (stream : RSStream) (F : GF) : Except String (List Nat) :=
  let k := stream.encoding.data
  if stream.length = 0 then .ok []
  else
    let validIdx := ((stream.valid.enum.filter fun p => p.2).map fun p => p.1).take k
    if validIdx.length < k then .error "Too many erasures to recover"
    else do
      let pv ← partialVandMat stream.valid k F
      let inverted ← pv.invert F
      let v ← vandMat 0 k k F
      decodeBytesMatrix stream (v.mul inverted F) validIdx F

/-- Embeds `CauchyEncoder::encode_bytes` (encoder.rs:327-354), over the
spec-modelled `cauchy_matrix`. -/
def CauchyEncoder.encodeBytes (enc : Encoding) (F : GF) (bytes : List Nat) :
    Except String RSStream :=
  if bytes.length = 0 then .ok (RSStream.empty enc)
  else do
    let c ← cauchyMat 0 enc.data enc.data F
    let inverted ← c.invert F
    let g ← cauchyMat enc.data enc.code enc.data F
    encodeBytesMatrix enc (g.mul inverted F) F bytes

deriving instance DecidableEq for Except

end Shamir

namespace Shamir

/-!
## Theorems

Each claim of the specification audit is settled below; the doc comment of
each theorem names the claim it belongs to.
-/

/-- C1 (code bug): the round-trip `decode(encode(b), all-true)` fails for
the Vandermonde codec.  On the repository's own reference input
(`rs=4.2`, `DirectField`, the 8 bytes of "DEADBEEF"), `encode_bytes`
produces the stream the source's tests expect, but `decode_bytes` with the
all-true mask of length k+m = 6 builds a 6×4 `PartialVandermondeMatrix`
from the whole mask and `Matrix::invert` then reads `self.mat[j][4]` from
rows of length 4 — an out-of-bounds panic — instead of returning the
original bytes. -/
theorem C1_vandermonde_all_valid_decode_panics :
    VandermondeEncoder.encodeBytes ⟨4, 2⟩ directGF [68, 69, 65, 68, 66, 69, 69, 70] =
      .ok ⟨8, ⟨4, 2⟩, [[68, 69, 65, 68, 2, 27], [66, 69, 69, 70, 56, 39]], []⟩ ∧
    VandermondeEncoder.decodeBytes
        ⟨8, ⟨4, 2⟩, [[68, 69, 65, 68, 2, 27], [66, 69, 69, 70, 56, 39]],
          [true, true, true, true, true, true]⟩ directGF =
      .error "index out of bounds" := by
  constructor <;> decide

/-- C2 (code bug): erasure recovery loses the final partial stripe.  For
the 5-byte buffer `[1,2,3,4,5]` under `rs=4.2` (`DirectField`), encoding
yields two stripes; erasing columns 0 and 2 (exactly m = 2 erasures,
mask `[F,T,F,T,T,T]`) and decoding returns only `[1,2,3,4]` — the matrix
decode path iterates `length / k = 1` rows and never emits byte 5. -/
theorem C2_erasure_decode_drops_tail :
    VandermondeEncoder.encodeBytes ⟨4, 2⟩ directGF [1, 2, 3, 4, 5] =
      .ok ⟨5, ⟨4, 2⟩, [[1, 2, 3, 4, 69, 94], [5, 0, 0, 0, 119, 108]], []⟩ ∧
    VandermondeEncoder.decodeBytes
        ⟨5, ⟨4, 2⟩, [[0, 2, 0, 4, 69, 94], [0, 0, 0, 0, 119, 108]],
          [false, true, false, true, true, true]⟩ directGF =
      .ok [1, 2, 3, 4] := by
  constructor <;> decide

/-- C3 (code bug): `Matrix::invert` reports `Singular` on an invertible
matrix that needs a row swap.  The permutation matrix `[[0,1],[1,0]]` is
its own inverse (its square is the identity), yet `invert` fails because
`swap_row` exchanges two local references instead of the stored rows,
leaving the zero pivot in place. -/
theorem C3_invert_fails_on_swap_matrix :
    (Mat.mk 2 2 [[0, 1], [1, 0]]).mul (Mat.mk 2 2 [[0, 1], [1, 0]]) directGF =
      Mat.identity 2 ∧
    (Mat.mk 2 2 [[0, 1], [1, 0]]).invert directGF =
      .error "The matrix is singular and cannot be inverted." := by
  constructor <;> decide

/-- C4 (code bug): `ExpLogField::exp` is not repeated multiplication.
At `x = 2`, `y = 1` it computes `exp[(log 2 · log 1) % 256] = exp[231] = 140`,
whereas `2^1 = 2` — which is what the `Field256` trait's default
(repeated multiplication with `ExpLogField::mul`) returns. -/
theorem C4_explog_exp_is_not_a_power :
    expLogExp 2 1 = 140 ∧ defaultExp expLogMul 2 1 = 2 ∧
      expLogExp 2 1 ≠ defaultExp expLogMul 2 1 := by
  refine ⟨by decide, by decide, by decide⟩

/-- C5 (code bug): an empty `valid` mask is treated as all-invalid, not
all-valid.  Encoding the 1-byte buffer `[7]` under `rs=1.0` yields a
stream with `valid = []`; decoding that stream directly fails with
`TooManyErasures` (0 valid columns < k) instead of returning `[7]`. -/
theorem C5_empty_valid_mask_rejected :
    LagrangeInterpolationEncoder.encodeBytes ⟨1, 0⟩ directGF [7] =
      .ok ⟨1, ⟨1, 0⟩, [[7]], []⟩ ∧
    LagrangeInterpolationEncoder.decodeBytes ⟨1, ⟨1, 0⟩, [[7]], []⟩ directGF =
      .error "Too many erasures to recover" := by
  constructor <;> decide

/-- C6 (code bug): the `polynomial.rs` in src does not interpolate.  For
`ys = [5]`, `interpolate` iterates `0..len-1 = 0..0`, producing the zero
polynomial, so `interpolate([5]).evaluate(0) = 0 ≠ ys[0] = 5`; its
arithmetic is wrapping u8 integer arithmetic, not GF(2^8). -/
theorem C6_wrapping_interpolate_fails :
    interpolateW [5] = [] ∧ evaluateW (interpolateW [5]) 0 = 0 ∧
      evaluateW (interpolateW [5]) 0 ≠ 5 := by
  refine ⟨by decide, by decide, by decide⟩

/-- C10: for the ExpLog and Table field variants, `inv(0) = 0`, and
`div(0, y) = 0` for every byte `y` including `y = 0`: the `x == 0` early
return precedes the `y == 0` panic branch, so dividing a zero dividend
never panics. -/
theorem C10_zero_dividend_never_panics :
    ∀ y : Nat, y < 256 →
      expLogDiv 0 y = some 0 ∧ tableDiv 0 y = some 0 ∧
        expLogInv 0 = 0 ∧ tableInv 0 = 0 := by
  intro y _
  refine ⟨rfl, rfl, by decide, by decide⟩

/-- C10, witness: the theorem instantiated at the divisor `y = 0`. -/
theorem C10_zero_dividend_never_panics_witness :
    expLogDiv 0 0 = some 0 ∧ tableDiv 0 0 = some 0 ∧
      expLogInv 0 = 0 ∧ tableInv 0 = 0 :=
  C10_zero_dividend_never_panics 0 (by decide)

/-! ### Chunker lemmas, towards C8 -/

theorem exceptBind_ok {ε α β : Type} (a : α) (f : α → Except ε β) :
    (Except.ok a >>= f) = f a := rfl

theorem exceptBind_error {ε α β : Type} (e : ε) (f : α → Except ε β) :
    ((Except.error e : Except ε α) >>= f) = Except.error e := rfl

theorem chunkAcc_chunk_length {d k : Nat} :
    ∀ (l acc : List Nat), acc.length < k → ∀ c ∈ chunkAcc d k acc l, c.length = k := by
  intro l
  induction l with
  | nil =>
    intro acc hacc c hc
    unfold chunkAcc at hc
    split at hc
    · simp at hc
    · simp at hc
      subst hc
      simp
      omega
  | cons x xs ih =>
    intro acc hacc c hc
    unfold chunkAcc at hc
    split at hc
    · next hfull =>
      have hk : 0 < k := by simp at hfull; omega
      rcases List.mem_cons.mp hc with rfl | hmem
      · exact hfull
      · exact ih [] (by simpa using hk) c hmem
    · next hnot =>
      refine ih (acc ++ [x]) ?_ c hc
      simp at hnot ⊢
      omega

theorem chunkAcc_length_le {d k : Nat} :
    ∀ (l acc : List Nat), acc.length < k →
      acc.length + l.length ≤ (chunkAcc d k acc l).length * k := by
  intro l
  induction l with
  | nil =>
    intro acc hacc
    unfold chunkAcc
    split
    · next he => simp at he; simp [he]
    · simp
      omega
  | cons x xs ih =>
    intro acc hacc
    unfold chunkAcc
    split
    · next hfull =>
      have hk : 0 < k := by simp at hfull; omega
      have h2 := ih [] (by simpa using hk)
      simp only [List.length_cons, Nat.succ_mul]
      simp at hfull h2
      omega
    · next hnot =>
      have h2 := ih (acc ++ [x]) (by simp at hnot ⊢; omega)
      simp at h2 ⊢
      omega

theorem chunkAcc_getD {k : Nat} :
    ∀ (l acc : List Nat) (i j : Nat), acc.length < k → j < k →
      ((chunkAcc 0 k acc l).getD i []).getD j 0 = (acc ++ l).getD (i * k + j) 0 := by
  intro l
  induction l with
  | nil =>
    intro acc i j hacc hj
    unfold chunkAcc
    split
    · next he =>
      simp at he
      subst he
      simp
    · next he =>
      cases i with
      | zero =>
        simp only [List.getD_cons_zero, Nat.zero_mul, Nat.zero_add, List.append_nil]
        by_cases hja : j < acc.length
        · rw [List.getD_append _ _ _ _ hja]
        · have h1 : acc.getD j 0 = 0 := List.getD_eq_default _ _ (Nat.le_of_not_lt hja)
          rw [h1, List.getD_append_right _ _ _ _ (Nat.le_of_not_lt hja)]
          have : j - acc.length < k - acc.length := by omega
          simp [List.getD]
      | succ i' =>
        simp only [List.getD_cons_succ, List.getD_nil, List.append_nil]
        have : acc.length ≤ (i' + 1) * k + j := by
          have : k ≤ (i' + 1) * k := Nat.le_mul_of_pos_left k (Nat.succ_pos i')
          omega
        rw [List.getD_eq_default _ _ this]
  | cons x xs ih =>
    intro acc i j hacc hj
    unfold chunkAcc
    split
    · next hfull =>
      simp only [List.length_append, List.length_cons, List.length_nil] at hfull
      cases i with
      | zero =>
        simp only [List.getD_cons_zero, Nat.zero_mul, Nat.zero_add]
        by_cases hja : j < acc.length
        · rw [List.getD_append _ _ _ _ hja, List.getD_append _ _ _ _ hja]
        · have hj' : j = acc.length := by omega
          subst hj'
          rw [List.getD_append_right _ _ _ _ (Nat.le_refl _),
            List.getD_append_right _ _ _ _ (Nat.le_refl _)]
          simp
      | succ i' =>
        have hk : 0 < k := by omega
        simp only [List.getD_cons_succ]
        rw [ih [] i' j (by simpa using hk) hj]
        have hge : acc.length ≤ (i' + 1) * k + j := by
          have : k ≤ (i' + 1) * k := Nat.le_mul_of_pos_left k (Nat.succ_pos i')
          omega
        rw [List.getD_append_right _ _ _ _ hge]
        have hidx : (i' + 1) * k + j - acc.length = i' * k + j + 1 := by
          rw [Nat.succ_mul]
          omega
        rw [hidx]
        simp
    · next hnot =>
      rw [ih (acc ++ [x]) i j (by simp at hnot ⊢; omega) hj]
      simp

/-- C8: the stream produced by the matrix encoder on a nonempty buffer
satisfies the coded-stream invariants: every stripe has length `k + m`,
the `length` field is the input byte count (which is at most
`stripes · k`), and every data position of the last stripe beyond the
input length holds the padding byte 0. -/
theorem C8_encode_invariants (enc : Encoding) (F : GF) (bytes : List Nat) (s : RSStream)
    (henc : VandermondeEncoder.encodeBytes enc F bytes = .ok s)
    (hne : bytes ≠ []) (hk : 1 ≤ enc.data) :
    (∀ c ∈ s.codes, c.length = enc.data + enc.code) ∧
    s.length = bytes.length ∧
    s.length ≤ s.codes.length * enc.data ∧
    (∀ j, j < enc.data → bytes.length ≤ (s.codes.length - 1) * enc.data + j →
      (s.codes.getD (s.codes.length - 1) []).getD j 0 = 0) := by
  have hbl : ¬bytes.length = 0 := by simpa using hne
  unfold VandermondeEncoder.encodeBytes at henc
  rw [if_neg hbl] at henc
  cases hv : vandMat 0 enc.data enc.data F with
  | error e => rw [hv, exceptBind_error] at henc; exact absurd henc (by simp)
  | ok v =>
    rw [hv, exceptBind_ok] at henc
    cases hi : v.invert F with
    | error e => rw [hi, exceptBind_error] at henc; exact absurd henc (by simp)
    | ok inv =>
      rw [hi, exceptBind_ok] at henc
      cases hg : vandMat enc.data enc.code enc.data F with
      | error e => rw [hg, exceptBind_error] at henc; exact absurd henc (by simp)
      | ok g =>
        rw [hg, exceptBind_ok] at henc
        simp only [encodeBytesMatrix, Except.ok.injEq] at henc
        have hgrows : g.rows = enc.code := by
          unfold vandMat tryFrom at hg
          split at hg
          · simp at hg
          · split at hg
            · simp at hg
            · simp only [Except.ok.injEq] at hg
              rw [← hg]
              simp
        subst henc
        have hchunk := chunkAcc_chunk_length (d := 0) (k := enc.data) bytes []
          (by simpa using hk)
        refine ⟨?_, rfl, ?_, ?_⟩
        · intro c hc
          dsimp only [chunkedD] at hc
          simp only [List.mem_map] at hc
          obtain ⟨chunk, hmem, rfl⟩ := hc
          have hlen := hchunk chunk hmem
          have hmv : (mulVec (g.mul inv F) chunk F).length = enc.code := by
            simp [mulVec, Mat.mul, hgrows]
          simp only [List.length_append, List.length_take, hlen, hmv]
          omega
        · dsimp only [chunkedD]
          have := chunkAcc_length_le (d := 0) (k := enc.data) bytes []
            (by simpa using hk)
          simpa using this
        · intro j hj hpad
          dsimp only [chunkedD] at hpad ⊢
          set chunks := chunkAcc 0 enc.data [] bytes with hcdef
          set L := List.map (fun chunk =>
            List.take enc.data chunk ++
              List.take enc.code (mulVec (g.mul inv F) chunk F)) chunks with hLdef
          have hLc : L.length = chunks.length := by simp [hLdef]
          rw [hLc] at hpad
          by_cases hSz : chunks.length = 0
          · have hnilc : chunks = [] := List.length_eq_zero.mp hSz
            simp [hLdef, hnilc]
          · have hlt : chunks.length - 1 < chunks.length := by omega
            have hgoal : L.getD (L.length - 1) [] = L.getD (chunks.length - 1) [] := by
              rw [hLc]
            rw [hgoal]
            have hgm : L.getD (chunks.length - 1) [] =
                List.take enc.data (chunks.getD (chunks.length - 1) []) ++
                  List.take enc.code
                    (mulVec (g.mul inv F) (chunks.getD (chunks.length - 1) []) F) := by
              rw [hLdef]
              rw [List.getD_eq_getElem _ _ (by simpa using hlt),
                List.getD_eq_getElem _ _ hlt]
              simp
            rw [hgm]
            have hmemc : chunks.getD (chunks.length - 1) [] ∈ chunks := by
              rw [List.getD_eq_getElem _ _ hlt]
              exact List.getElem_mem _
            have hclen : (chunks.getD (chunks.length - 1) []).length = enc.data :=
              hchunk _ hmemc
            have htk : (List.take enc.data (chunks.getD (chunks.length - 1) [])).length =
                enc.data := by
              rw [List.length_take, hclen, Nat.min_self]
            rw [List.getD_append _ _ _ _ (by rw [htk]; exact hj)]
            have hstep : (List.take enc.data (chunks.getD (chunks.length - 1) [])).getD j 0 =
                (chunks.getD (chunks.length - 1) []).getD j 0 := by
              have h1 : j < (List.take enc.data (chunks.getD (chunks.length - 1) [])).length := by
                rw [htk]; exact hj
              have h2 : j < (chunks.getD (chunks.length - 1) []).length := by
                rw [hclen]; exact hj
              rw [List.getD_eq_getElem _ _ h1, List.getD_eq_getElem _ _ h2]
              simp [List.getElem_take]
            rw [hstep]
            show ((chunkAcc 0 enc.data [] bytes).getD (chunks.length - 1) []).getD j 0 = 0
            rw [chunkAcc_getD bytes [] (chunks.length - 1) j (by simpa using hk) hj]
            simp only [List.nil_append]
            exact List.getD_eq_default _ _ hpad


/-! ### XOR-linearity of the Direct field multiplication, towards C7 -/

theorem xor_shiftLeft_one (x y : Nat) : (x ^^^ y) <<< 1 = x <<< 1 ^^^ y <<< 1 := by
  apply Nat.eq_of_testBit_eq
  intro i
  simp [Nat.testBit_shiftLeft, Nat.testBit_xor, Bool.and_xor_distrib_left]

theorem xor_mod_two_pow (x y n : Nat) : (x ^^^ y) % 2 ^ n = x % 2 ^ n ^^^ y % 2 ^ n := by
  apply Nat.eq_of_testBit_eq
  intro i
  simp [Nat.testBit_mod_two_pow, Nat.testBit_xor, Bool.and_xor_distrib_left]

theorem xor_mod_256 (x y : Nat) : (x ^^^ y) % 256 = x % 256 ^^^ y % 256 := by
  have h : (256 : Nat) = 2 ^ 8 := rfl
  rw [h]
  exact xor_mod_two_pow x y 8

theorem xor_mod_two (x y : Nat) : (x ^^^ y) % 2 = x % 2 ^^^ y % 2 := by
  rw [← Nat.and_one_is_mod, ← Nat.and_one_is_mod, ← Nat.and_one_is_mod,
    Nat.and_xor_distrib_right]

theorem xor_div_two (x y : Nat) : (x ^^^ y) / 2 = x / 2 ^^^ y / 2 := by
  apply Nat.eq_of_testBit_eq
  intro i
  simp [Nat.testBit_div_two, Nat.testBit_xor]

theorem xor_xor_comm (a b c d : Nat) : a ^^^ b ^^^ (c ^^^ d) = a ^^^ c ^^^ (b ^^^ d) := by
  rw [Nat.xor_assoc, Nat.xor_assoc]
  congr 1
  rw [← Nat.xor_assoc, ← Nat.xor_assoc]
  congr 1
  exact Nat.xor_comm b c

theorem cond_bool_xor (a b : Bool) (t : Nat) :
    (if (a.xor b) = true then t else 0) =
      (if a = true then t else 0) ^^^ (if b = true then t else 0) := by
  cases a <;> cases b <;> simp [Nat.xor_self]

theorem shiftRed_xor (x y : Nat) : shiftRed (x ^^^ y) = shiftRed x ^^^ shiftRed y := by
  unfold shiftRed
  rw [xor_shiftLeft_one, xor_mod_256, Nat.testBit_xor, cond_bool_xor]
  exact xor_xor_comm _ _ _ _

theorem shiftRed_zero : shiftRed 0 = 0 := by decide

theorem mulPure_zero_right (f : Nat) : ∀ a, mulPure f a 0 = 0 := by
  induction f with
  | zero => intro a; rfl
  | succ f ih => intro a; simp [mulPure, ih]

theorem mulPure_zero_left (f : Nat) : ∀ b, mulPure f 0 b = 0 := by
  induction f with
  | zero => intro b; rfl
  | succ f ih => intro b; simp [mulPure, shiftRed_zero, ih]

theorem mulLoop_eq (f : Nat) : ∀ a b acc, mulLoop f a b acc = acc ^^^ mulPure f a b := by
  induction f with
  | zero => intro a b acc; simp [mulLoop, mulPure]
  | succ f ih =>
    intro a b acc
    simp only [mulLoop, mulPure]
    split
    · next h => rw [h, mulPure_zero_right, Nat.xor_zero]
    · rw [ih, Nat.xor_assoc]

theorem cond_arg_xor (c : Prop) [Decidable c] (a₁ a₂ : Nat) :
    (if c then a₁ ^^^ a₂ else 0) = (if c then a₁ else 0) ^^^ (if c then a₂ else 0) := by
  split <;> simp

theorem mulPure_xor_left (f : Nat) :
    ∀ a₁ a₂ b, mulPure f (a₁ ^^^ a₂) b = mulPure f a₁ b ^^^ mulPure f a₂ b := by
  induction f with
  | zero => intro a₁ a₂ b; simp [mulPure]
  | succ f ih =>
    intro a₁ a₂ b
    simp only [mulPure]
    rw [cond_arg_xor, shiftRed_xor, ih]
    exact xor_xor_comm _ _ _ _

theorem cond_mod_xor (a : Nat) (b₁ b₂ : Nat) :
    (if (b₁ ^^^ b₂) % 2 = 1 then a else 0) =
      (if b₁ % 2 = 1 then a else 0) ^^^ (if b₂ % 2 = 1 then a else 0) := by
  rw [xor_mod_two]
  rcases Nat.mod_two_eq_zero_or_one b₁ with h1 | h1 <;>
    rcases Nat.mod_two_eq_zero_or_one b₂ with h2 | h2 <;>
      simp [h1, h2, Nat.xor_self]

theorem mulPure_xor_right (f : Nat) :
    ∀ a b₁ b₂, mulPure f a (b₁ ^^^ b₂) = mulPure f a b₁ ^^^ mulPure f a b₂ := by
  induction f with
  | zero => intro a b₁ b₂; simp [mulPure]
  | succ f ih =>
    intro a b₁ b₂
    simp only [mulPure]
    rw [cond_mod_xor, xor_div_two, ih]
    exact xor_xor_comm _ _ _ _

theorem directMul_eq_pure (x y : Nat) : directMul x y = mulPure 8 x y := by
  rw [directMul, mulLoop_eq, Nat.zero_xor]

theorem directMul_xor_left (a₁ a₂ b : Nat) :
    directMul (a₁ ^^^ a₂) b = directMul a₁ b ^^^ directMul a₂ b := by
  simp [directMul_eq_pure, mulPure_xor_left]

theorem directMul_xor_right (a b₁ b₂ : Nat) :
    directMul a (b₁ ^^^ b₂) = directMul a b₁ ^^^ directMul a b₂ := by
  simp [directMul_eq_pure, mulPure_xor_right]

theorem directMul_zero_left (b : Nat) : directMul 0 b = 0 := by
  rw [directMul_eq_pure]
  exact mulPure_zero_left 8 b

theorem directMul_zero_right (a : Nat) : directMul a 0 = 0 := by
  rw [directMul_eq_pure]
  exact mulPure_zero_right 8 a

/-! ### Polynomial algebra lemmas over the Direct field, towards C7 -/

theorem foldl_congr_mem {α : Type} (l : List α) (f g : Nat → α → Nat) (b : Nat)
    (h : ∀ acc, ∀ a ∈ l, f acc a = g acc a) : l.foldl f b = l.foldl g b := by
  induction l generalizing b with
  | nil => rfl
  | cons x xs ih =>
    simp only [List.foldl_cons, h b x (by simp)]
    exact ih _ fun acc a ha => h acc a (by simp [ha])

theorem polyAdd_getD : ∀ (p q : List Nat) (i : Nat),
    (polyAdd p q).getD i 0 = p.getD i 0 ^^^ q.getD i 0 := by
  intro p
  induction p with
  | nil => intro q i; simp [polyAdd]
  | cons a p ih =>
    intro q i
    cases q with
    | nil => simp [polyAdd]
    | cons b q =>
      cases i with
      | zero => simp [polyAdd, gfAdd]
      | succ i =>
        simp only [polyAdd, List.getD_cons_succ]
        exact ih q i

theorem polyAdd_length : ∀ (p q : List Nat), (polyAdd p q).length = max p.length q.length := by
  intro p
  induction p with
  | nil => intro q; simp [polyAdd]
  | cons a p ih =>
    intro q
    cases q with
    | nil => simp [polyAdd]
    | cons b q => simp [polyAdd, ih, Nat.succ_max_succ]

theorem polyAdd_map {α : Type} (l : List α) (f g : α → Nat) :
    polyAdd (l.map f) (l.map g) = l.map fun x => f x ^^^ g x := by
  induction l with
  | nil => rfl
  | cons x xs ih => simp [polyAdd, gfAdd, ih]

theorem evalAux_polyAdd (x : Nat) : ∀ (p q : List Nat) (e : Nat),
    evalAux directGF x (polyAdd p q) e = evalAux directGF x p e ^^^ evalAux directGF x q e := by
  intro p
  induction p with
  | nil => intro q e; simp [polyAdd, evalAux]
  | cons a p ih =>
    intro q e
    cases q with
    | nil => simp [polyAdd, evalAux]
    | cons b q =>
      simp only [polyAdd, evalAux]
      have hmul : directGF.mul (gfAdd a b) (directGF.exp x (e % 256)) =
          directGF.mul a (directGF.exp x (e % 256)) ^^^
            directGF.mul b (directGF.exp x (e % 256)) :=
        directMul_xor_left a b _
      rw [hmul, ih]
      simp only [gfAdd]
      exact xor_xor_comm _ _ _ _

theorem foldl_cond_xor (P : Nat → Prop) [DecidablePred P] (h₁ h₂ : Nat → Nat) :
    ∀ (l : List Nat) (a₁ a₂ : Nat),
      l.foldl (fun acc i => if P i then gfAdd acc (h₁ i ^^^ h₂ i) else acc) (a₁ ^^^ a₂) =
        l.foldl (fun acc i => if P i then gfAdd acc (h₁ i) else acc) a₁ ^^^
          l.foldl (fun acc i => if P i then gfAdd acc (h₂ i) else acc) a₂ := by
  intro l
  induction l with
  | nil => intro a₁ a₂; rfl
  | cons i l ih =>
    intro a₁ a₂
    simp only [List.foldl_cons]
    by_cases hp : P i
    · rw [if_pos hp, if_pos hp, if_pos hp]
      simp only [gfAdd]
      rw [xor_xor_comm a₁ a₂ (h₁ i) (h₂ i)]
      exact ih _ _
    · rw [if_neg hp, if_neg hp, if_neg hp]
      exact ih _ _

theorem polyMulF_length (F : GF) (p q : List Nat) (hp : p ≠ []) (hq : q ≠ []) :
    (polyMulF F p q).length = p.length + q.length - 1 := by
  unfold polyMulF
  rw [if_neg (by simp [hp, hq])]
  simp

theorem polyMulF_ne_nil (F : GF) (p q : List Nat) (hp : p ≠ []) (hq : q ≠ []) :
    polyMulF F p q ≠ [] := by
  have hl := polyMulF_length F p q hp hq
  have hp' := List.length_pos.mpr hp
  have hq' := List.length_pos.mpr hq
  intro h
  rw [h] at hl
  simp at hl
  omega

theorem polyMulF_polyAdd_left (p p' q : List Nat) (hlen : p.length = p'.length)
    (hp : p ≠ []) (hp' : p' ≠ []) (hq : q ≠ []) :
    polyMulF directGF (polyAdd p p') q =
      polyAdd (polyMulF directGF p q) (polyMulF directGF p' q) := by
  have hpa_len : (polyAdd p p').length = p.length := by
    rw [polyAdd_length, hlen, Nat.max_self]
  have hpa_ne : polyAdd p p' ≠ [] := by
    intro h
    rw [h] at hpa_len
    have := List.length_pos.mpr hp
    simp at hpa_len
    omega
  unfold polyMulF
  rw [if_neg (by simp [hpa_ne, hq]), if_neg (by simp [hp, hq]), if_neg (by simp [hp', hq])]
  rw [hpa_len, ← hlen, polyAdd_map]
  apply List.map_congr_left
  intro e _
  have hcong : (List.range p.length).foldl
      (fun acc a =>
        if a ≤ e ∧ e - a < q.length then
          gfAdd acc (directGF.mul ((polyAdd p p').getD a 0) (q.getD (e - a) 0))
        else acc) 0 =
      (List.range p.length).foldl
        (fun acc a =>
          if a ≤ e ∧ e - a < q.length then
            gfAdd acc (directGF.mul (p.getD a 0) (q.getD (e - a) 0) ^^^
              directGF.mul (p'.getD a 0) (q.getD (e - a) 0))
          else acc) 0 := by
    apply foldl_congr_mem
    intro acc a _
    by_cases hcnd : a ≤ e ∧ e - a < q.length
    · rw [if_pos hcnd, if_pos hcnd, polyAdd_getD]
      have : directGF.mul (p.getD a 0 ^^^ p'.getD a 0) (q.getD (e - a) 0) =
          directGF.mul (p.getD a 0) (q.getD (e - a) 0) ^^^
            directGF.mul (p'.getD a 0) (q.getD (e - a) 0) :=
        directMul_xor_left _ _ _
      rw [this]
    · rw [if_neg hcnd, if_neg hcnd]
  rw [hcong]
  have hsplit := foldl_cond_xor (fun a => a ≤ e ∧ e - a < q.length)
    (fun a => directGF.mul (p.getD a 0) (q.getD (e - a) 0))
    (fun a => directGF.mul (p'.getD a 0) (q.getD (e - a) 0))
    (List.range p.length) 0 0
  simpa using hsplit

theorem hK_cons_ne {x y : Nat} : ([x, y] : List Nat) ≠ [] := by simp

theorem foldl_polyMul_linear (K : Nat × Nat → List Nat) (hK : ∀ p, K p ≠ []) :
    ∀ (L : List (Nat × Nat)) (q q' : List Nat), q.length = q'.length → q ≠ [] → q' ≠ [] →
      L.foldl (fun term p => polyMulF directGF term (K p)) (polyAdd q q') =
        polyAdd (L.foldl (fun term p => polyMulF directGF term (K p)) q)
          (L.foldl (fun term p => polyMulF directGF term (K p)) q') := by
  intro L
  induction L with
  | nil => intro q q' _ _ _; rfl
  | cons p L ih =>
    intro q q' hlen hq hq'
    simp only [List.foldl_cons]
    rw [polyMulF_polyAdd_left q q' (K p) hlen hq hq' (hK p)]
    exact ih _ _
      (by rw [polyMulF_length _ _ _ hq (hK p), polyMulF_length _ _ _ hq' (hK p), hlen])
      (polyMulF_ne_nil _ _ _ hq (hK p)) (polyMulF_ne_nil _ _ _ hq' (hK p))

/-! ### Byte-wise linear-map equality, towards C7 -/

theorem two_pow_xor : ∀ n, n < 8 → ∀ r, r < 2 ^ n → 2 ^ n ^^^ r = 2 ^ n + r := by decide

theorem linear_byte_eq (h₁ h₂ : Nat → Nat)
    (l₁ : ∀ u v, h₁ (u ^^^ v) = h₁ u ^^^ h₁ v)
    (l₂ : ∀ u v, h₂ (u ^^^ v) = h₂ u ^^^ h₂ v)
    (agree : ∀ t, t < 8 → h₁ (2 ^ t) = h₂ (2 ^ t)) :
    ∀ v, v < 256 → h₁ v = h₂ v := by
  have hz₁ : h₁ 0 = 0 := by
    have h := l₁ 0 0
    simp only [Nat.xor_self] at h
    exact h
  have hz₂ : h₂ 0 = 0 := by
    have h := l₂ 0 0
    simp only [Nat.xor_self] at h
    exact h
  suffices haux : ∀ n, n ≤ 8 → ∀ v, v < 2 ^ n → h₁ v = h₂ v by
    intro v hv
    exact haux 8 (Nat.le_refl 8) v hv
  intro n
  induction n with
  | zero =>
    intro _ v hv
    have : v = 0 := Nat.lt_one_iff.mp hv
    rw [this, hz₁, hz₂]
  | succ n ih =>
    intro hn v hv
    by_cases hs : v < 2 ^ n
    · exact ih (by omega) v hs
    · have h2 : 2 ^ (n + 1) = 2 ^ n + 2 ^ n := by
        rw [Nat.pow_succ]
        omega
      have hr : v - 2 ^ n < 2 ^ n := by omega
      have hv' : v = 2 ^ n ^^^ (v - 2 ^ n) := by
        rw [two_pow_xor n (by omega) (v - 2 ^ n) hr]
        omega
      rw [hv', l₁, l₂, agree n (by omega), ih (by omega) _ hr]

/-! ### Per-slot linearity of the Lagrange stripe map (rs=4.2, Direct field)

For a chunk `[a, b, c, d]`, `interpolate` sums four Lagrange basis terms,
and each term depends on only one slot of the chunk (the other slots enter
`single_term` only through their indices).  Each per-slot map is
XOR-linear, so comparing it with the XOR-linear Vandermonde generator row
on the 8 powers of two settles their equality on all 256 bytes.
-/

theorem st0_linear (u v : Nat) :
    singleTermF directGF [u ^^^ v, 0, 0, 0] 0 =
      polyAdd (singleTermF directGF [u, 0, 0, 0] 0) (singleTermF directGF [v, 0, 0, 0] 0) :=
  foldl_polyMul_linear
    (fun p => [directGF.mul (p.1 % 256) (directGF.inv (gfAdd (0 % 256) (p.1 % 256))),
               directGF.inv (gfAdd (0 % 256) (p.1 % 256))])
    (fun _ => by simp)
    [(1, 0), (2, 0), (3, 0)] [u] [v] rfl (by simp) (by simp)

theorem st1_linear (u v : Nat) :
    singleTermF directGF [0, u ^^^ v, 0, 0] 1 =
      polyAdd (singleTermF directGF [0, u, 0, 0] 1) (singleTermF directGF [0, v, 0, 0] 1) :=
  foldl_polyMul_linear
    (fun p => [directGF.mul (p.1 % 256) (directGF.inv (gfAdd (1 % 256) (p.1 % 256))),
               directGF.inv (gfAdd (1 % 256) (p.1 % 256))])
    (fun _ => by simp)
    [(0, 0), (2, 0), (3, 0)] [u] [v] rfl (by simp) (by simp)

theorem st2_linear (u v : Nat) :
    singleTermF directGF [0, 0, u ^^^ v, 0] 2 =
      polyAdd (singleTermF directGF [0, 0, u, 0] 2) (singleTermF directGF [0, 0, v, 0] 2) :=
  foldl_polyMul_linear
    (fun p => [directGF.mul (p.1 % 256) (directGF.inv (gfAdd (2 % 256) (p.1 % 256))),
               directGF.inv (gfAdd (2 % 256) (p.1 % 256))])
    (fun _ => by simp)
    [(0, 0), (1, 0), (3, 0)] [u] [v] rfl (by simp) (by simp)

theorem st3_linear (u v : Nat) :
    singleTermF directGF [0, 0, 0, u ^^^ v] 3 =
      polyAdd (singleTermF directGF [0, 0, 0, u] 3) (singleTermF directGF [0, 0, 0, v] 3) :=
  foldl_polyMul_linear
    (fun p => [directGF.mul (p.1 % 256) (directGF.inv (gfAdd (3 % 256) (p.1 % 256))),
               directGF.inv (gfAdd (3 % 256) (p.1 % 256))])
    (fun _ => by simp)
    [(0, 0), (1, 0), (2, 0)] [u] [v] rfl (by simp) (by simp)

theorem slot0_col4 : ∀ v, v < 256 →
    evalAux directGF 4 (singleTermF directGF [v, 0, 0, 0] 0) 0 = directMul 27 v := by
  refine linear_byte_eq _ _ ?_ ?_ ?_
  · intro u v
    rw [st0_linear, evalAux_polyAdd]
  · intro u v
    exact directMul_xor_right 27 u v
  · decide

theorem slot1_col4 : ∀ v, v < 256 →
    evalAux directGF 4 (singleTermF directGF [0, v, 0, 0] 1) 0 = directMul 28 v := by
  refine linear_byte_eq _ _ ?_ ?_ ?_
  · intro u v
    rw [st1_linear, evalAux_polyAdd]
  · intro u v
    exact directMul_xor_right 28 u v
  · decide

theorem slot2_col4 : ∀ v, v < 256 →
    evalAux directGF 4 (singleTermF directGF [0, 0, v, 0] 2) 0 = directMul 18 v := by
  refine linear_byte_eq _ _ ?_ ?_ ?_
  · intro u v
    rw [st2_linear, evalAux_polyAdd]
  · intro u v
    exact directMul_xor_right 18 u v
  · decide

theorem slot3_col4 : ∀ v, v < 256 →
    evalAux directGF 4 (singleTermF directGF [0, 0, 0, v] 3) 0 = directMul 20 v := by
  refine linear_byte_eq _ _ ?_ ?_ ?_
  · intro u v
    rw [st3_linear, evalAux_polyAdd]
  · intro u v
    exact directMul_xor_right 20 u v
  · decide

theorem slot0_col5 : ∀ v, v < 256 →
    evalAux directGF 5 (singleTermF directGF [v, 0, 0, 0] 0) 0 = directMul 28 v := by
  refine linear_byte_eq _ _ ?_ ?_ ?_
  · intro u v
    rw [st0_linear, evalAux_polyAdd]
  · intro u v
    exact directMul_xor_right 28 u v
  · decide

theorem slot1_col5 : ∀ v, v < 256 →
    evalAux directGF 5 (singleTermF directGF [0, v, 0, 0] 1) 0 = directMul 27 v := by
  refine linear_byte_eq _ _ ?_ ?_ ?_
  · intro u v
    rw [st1_linear, evalAux_polyAdd]
  · intro u v
    exact directMul_xor_right 27 u v
  · decide

theorem slot2_col5 : ∀ v, v < 256 →
    evalAux directGF 5 (singleTermF directGF [0, 0, v, 0] 2) 0 = directMul 20 v := by
  refine linear_byte_eq _ _ ?_ ?_ ?_
  · intro u v
    rw [st2_linear, evalAux_polyAdd]
  · intro u v
    exact directMul_xor_right 20 u v
  · decide

theorem slot3_col5 : ∀ v, v < 256 →
    evalAux directGF 5 (singleTermF directGF [0, 0, 0, v] 3) 0 = directMul 18 v := by
  refine linear_byte_eq _ _ ?_ ?_ ?_
  · intro u v
    rw [st3_linear, evalAux_polyAdd]
  · intro u v
    exact directMul_xor_right 18 u v
  · decide

theorem lag_col4 (a b c d : Nat) (ha : a < 256) (hb : b < 256) (hc : c < 256)
    (hd : d < 256) :
    evaluateF directGF (interpolateF directGF [a, b, c, d]) 4 =
      gfAdd (gfAdd (gfAdd (gfAdd 0 (directMul 27 a)) (directMul 28 b)) (directMul 18 c))
        (directMul 20 d) := by
  show evalAux directGF 4
      (polyAdd (polyAdd (polyAdd (singleTermF directGF [a, 0, 0, 0] 0)
        (singleTermF directGF [0, b, 0, 0] 1)) (singleTermF directGF [0, 0, c, 0] 2))
        (singleTermF directGF [0, 0, 0, d] 3)) 0 = _
  rw [evalAux_polyAdd, evalAux_polyAdd, evalAux_polyAdd,
    slot0_col4 a ha, slot1_col4 b hb, slot2_col4 c hc, slot3_col4 d hd]
  simp [gfAdd]

theorem lag_col5 (a b c d : Nat) (ha : a < 256) (hb : b < 256) (hc : c < 256)
    (hd : d < 256) :
    evaluateF directGF (interpolateF directGF [a, b, c, d]) 5 =
      gfAdd (gfAdd (gfAdd (gfAdd 0 (directMul 28 a)) (directMul 27 b)) (directMul 20 c))
        (directMul 18 d) := by
  show evalAux directGF 5
      (polyAdd (polyAdd (polyAdd (singleTermF directGF [a, 0, 0, 0] 0)
        (singleTermF directGF [0, b, 0, 0] 1)) (singleTermF directGF [0, 0, c, 0] 2))
        (singleTermF directGF [0, 0, 0, d] 3)) 0 = _
  rw [evalAux_polyAdd, evalAux_polyAdd, evalAux_polyAdd,
    slot0_col5 a ha, slot1_col5 b hb, slot2_col5 c hc, slot3_col5 d hd]
  simp [gfAdd]

theorem stripe_eq (a b c d : Nat) (ha : a < 256) (hb : b < 256) (hc : c < 256)
    (hd : d < 256) :
    ((List.range (Encoding.total ⟨4, 2⟩)).map fun bcol =>
        if bcol < (4 : Nat) then [a, b, c, d].getD bcol 0
        else evaluateF directGF (interpolateF directGF [a, b, c, d]) (bcol % 256)) =
      List.take 4 [a, b, c, d] ++
        List.take 2
          (mulVec (Mat.mk 2 4 [[27, 28, 18, 20], [28, 27, 20, 18]]) [a, b, c, d] directGF) := by
  have h4 := lag_col4 a b c d ha hb hc hd
  have h5 := lag_col5 a b c d ha hb hc hd
  show [a, b, c, d,
      evaluateF directGF (interpolateF directGF [a, b, c, d]) 4,
      evaluateF directGF (interpolateF directGF [a, b, c, d]) 5] =
    [a, b, c, d,
      gfAdd (gfAdd (gfAdd (gfAdd 0 (directMul 27 a)) (directMul 28 b)) (directMul 18 c))
        (directMul 20 d),
      gfAdd (gfAdd (gfAdd (gfAdd 0 (directMul 28 a)) (directMul 27 b)) (directMul 20 c))
        (directMul 18 d)]
  rw [h4, h5]

theorem chunkAcc_mem_entry {d k : Nat} :
    ∀ (l acc : List Nat), ∀ c ∈ chunkAcc d k acc l, ∀ y ∈ c, y ∈ acc ∨ y ∈ l ∨ y = d := by
  intro l
  induction l with
  | nil =>
    intro acc c hc y hy
    unfold chunkAcc at hc
    split at hc
    · simp at hc
    · simp at hc
      subst hc
      rcases List.mem_append.mp hy with h | h
      · exact Or.inl h
      · exact Or.inr (Or.inr (List.eq_of_mem_replicate h))
  | cons x xs ih =>
    intro acc c hc y hy
    unfold chunkAcc at hc
    split at hc
    · rcases List.mem_cons.mp hc with rfl | hmem
      · rcases List.mem_append.mp hy with h | h
        · exact Or.inl h
        · simp at h
          subst h
          exact Or.inr (Or.inl (by simp))
      · rcases ih [] c hmem y hy with h | h | h
        · simp at h
        · exact Or.inr (Or.inl (by simp [h]))
        · exact Or.inr (Or.inr h)
    · rcases ih (acc ++ [x]) c hc y hy with h | h | h
      · rcases List.mem_append.mp h with h' | h'
        · exact Or.inl h'
        · simp at h'
          subst h'
          exact Or.inr (Or.inl (by simp))
      · exact Or.inr (Or.inl (by simp [h]))
      · exact Or.inr (Or.inr h)

theorem length_four {l : List Nat} (h : l.length = 4) :
    ∃ a b c d, l = [a, b, c, d] := by
  cases l with
  | nil => simp at h
  | cons a t =>
    cases t with
    | nil => simp at h
    | cons b t =>
      cases t with
      | nil => simp at h
      | cons c t =>
        cases t with
        | nil => simp at h
        | cons d t =>
          cases t with
          | nil => exact ⟨a, b, c, d, rfl⟩
          | cons e t => simp at h

/-! ### Lemmas about `splitDot`, towards C9 -/

theorem splitDot_ne_nil (l : List Char) : splitDot l ≠ [] := by
  induction l with
  | nil => simp [splitDot]
  | cons c rest ih =>
    simp only [splitDot]
    split
    · simp
    · cases h : splitDot rest with
      | nil => exact absurd h ih
      | cons p ps => simp

theorem splitDot_eq_single (l b : List Char) :
    splitDot l = [b] ↔ l = b ∧ '.' ∉ b := by
  induction l generalizing b with
  | nil =>
    constructor
    · intro h
      simp [splitDot] at h
      subst h
      exact ⟨rfl, by simp⟩
    · rintro ⟨rfl, -⟩; rfl
  | cons c rest ih =>
    simp only [splitDot]
    split
    · next hc =>
      subst hc
      constructor
      · intro h
        cases hr : splitDot rest with
        | nil => exact absurd hr (splitDot_ne_nil rest)
        | cons p ps => rw [hr] at h; simp at h
      · rintro ⟨h, hmem⟩
        exact absurd (h ▸ List.mem_cons_self _ _) hmem
    · next hc =>
      cases hr : splitDot rest with
      | nil => exact absurd hr (splitDot_ne_nil rest)
      | cons p ps =>
        constructor
        · intro h
          simp at h
          obtain ⟨rfl, rfl⟩ := h
          obtain ⟨e1, e2⟩ := (ih p).mp hr
          subst e1
          refine ⟨rfl, ?_⟩
          simp only [List.mem_cons, not_or]
          exact ⟨fun hh => hc hh.symm, e2⟩
        · rintro ⟨h, hmem⟩
          rw [← h] at hmem
          simp only [List.mem_cons, not_or] at hmem
          have hs : splitDot rest = [rest] := (ih rest).mpr ⟨rfl, hmem.2⟩
          rw [hs] at hr
          simp at hr
          obtain ⟨rfl, rfl⟩ := hr
          simp [← h]

theorem splitDot_eq_pair (l a b : List Char) :
    splitDot l = [a, b] ↔ l = a ++ '.' :: b ∧ '.' ∉ a ∧ '.' ∉ b := by
  induction l generalizing a with
  | nil =>
    constructor
    · intro h; simp [splitDot] at h
    · rintro ⟨h, -, -⟩
      exact absurd h.symm (by simp)
  | cons c rest ih =>
    simp only [splitDot]
    split
    · next hc =>
      subst hc
      constructor
      · intro h
        simp at h
        obtain ⟨rfl, hb⟩ := h
        obtain ⟨e1, e2⟩ := (splitDot_eq_single rest b).mp hb
        subst e1
        exact ⟨rfl, by simp, e2⟩
      · rintro ⟨h, ha, hb⟩
        cases a with
        | nil =>
          simp at h
          simp [(splitDot_eq_single rest b).mpr ⟨h, hb⟩]
        | cons a0 as =>
          simp at h
          exact absurd (h.1 ▸ List.mem_cons_self _ _) ha
    · next hc =>
      cases hr : splitDot rest with
      | nil => exact absurd hr (splitDot_ne_nil rest)
      | cons p ps =>
        constructor
        · intro h
          simp at h
          obtain ⟨rfl, rfl⟩ := h
          obtain ⟨e1, e2, e3⟩ := (ih p).mp hr
          subst e1
          refine ⟨rfl, ?_, e3⟩
          simp only [List.mem_cons, not_or]
          exact ⟨fun hh => hc hh.symm, e2⟩
        · rintro ⟨h, ha, hb⟩
          cases a with
          | nil =>
            simp at h
            exact absurd h.1 hc
          | cons a0 as =>
            simp only [List.cons_append, List.cons.injEq] at h
            simp only [List.mem_cons, not_or] at ha
            obtain ⟨rfl, hrest⟩ := h
            have hs : splitDot rest = [as, b] := (ih as).mpr ⟨hrest, ha.2, hb⟩
            rw [hs] at hr
            simp at hr
            obtain ⟨rfl, rfl⟩ := hr
            rfl

/-- C9: `Encoding::from_str(s)` succeeds with `(k, m)` exactly when `s`
is the prefix `rs=` followed by two `.`-separated pieces, each accepted by
Rust's u8 decimal parser, whose values sum to at most 255 (`m = 0`
included); every other input is rejected. -/
theorem C9_fromStr_characterisation (s : List Char) (k m : Nat) :
    Encoding.fromStr s = .ok ⟨k, m⟩ ↔
      ∃ a b : List Char,
        s = rsTag ++ a ++ '.' :: b ∧ '.' ∉ a ∧ '.' ∉ b ∧
          parseU8 a = some k ∧ parseU8 b = some m ∧ k + m ≤ 255 := by
  constructor
  · intro h
    unfold Encoding.fromStr at h
    split at h
    · next h3 =>
      cases hp : splitDot (s.drop 3) with
      | nil => exact absurd hp (splitDot_ne_nil _)
      | cons p ps =>
        rw [hp] at h
        cases ps with
        | nil => simp at h
        | cons q qs =>
          cases qs with
          | cons r rs => simp at h
          | nil =>
            simp only [List.map_cons, List.map_nil] at h
            cases hq1 : parseU8 p with
            | none => rw [hq1] at h; simp at h
            | some d =>
              cases hq2 : parseU8 q with
              | none => rw [hq1, hq2] at h; simp at h
              | some c =>
                rw [hq1, hq2] at h
                simp only [] at h
                split at h
                · next hle =>
                  simp at h
                  obtain ⟨rfl, rfl⟩ := h
                  have hdec := (splitDot_eq_pair (s.drop 3) p q).mp hp
                  refine ⟨p, q, ?_, hdec.2.1, hdec.2.2, hq1, hq2, hle⟩
                  rw [← h3, List.append_assoc, ← hdec.1]
                  exact (List.take_append_drop 3 s).symm
                · simp at h
    · simp at h
  · rintro ⟨a, b, rfl, ha, hb, hpa, hpb, hle⟩
    have h3 : (rsTag ++ a ++ '.' :: b).take 3 = rsTag := by
      rw [List.append_assoc, List.take_append_of_le_length (by simp [rsTag])]
      simp [rsTag]
    have hd : (rsTag ++ a ++ '.' :: b).drop 3 = a ++ '.' :: b := by
      rw [List.append_assoc]
      have : (3 : Nat) = rsTag.length := by simp [rsTag]
      rw [this, List.drop_left]
    unfold Encoding.fromStr
    rw [if_pos h3, hd, (splitDot_eq_pair _ a b).mpr ⟨rfl, ha, hb⟩]
    simp [hpa, hpb, hle]


/-- C8, witness: the invariants theorem applied to `rs=1.1`, the Direct
field and the 1-byte buffer `[1]`, whose encoding is the single stripe
`[1, 1]`. -/
theorem C8_encode_invariants_witness :
    (RSStream.mk 1 ⟨1, 1⟩ [[1, 1]] []).length = [(1 : Nat)].length ∧
      (RSStream.mk 1 ⟨1, 1⟩ [[1, 1]] []).length ≤
        (RSStream.mk 1 ⟨1, 1⟩ [[1, 1]] []).codes.length * (1 : Nat) := by
  have h := C8_encode_invariants ⟨1, 1⟩ directGF [1] (RSStream.mk 1 ⟨1, 1⟩ [[1, 1]] [])
    (by decide) (by decide) (by decide)
  exact ⟨h.2.1, h.2.2.1⟩

/-- C7, counterexample: the codec variants do not all produce identical
codes.  On the repository's reference input (`rs=4.2`, `DirectField`,
"DEADBEEF"), the Cauchy encoder's code symbols `[118, 168]`/`[57, 86]`
differ from the `[2, 27]`/`[56, 39]` produced by the Vandermonde (and
Lagrange) encoders: the Cauchy conditioning `C_bottom · C_top⁻¹` is not
polynomial evaluation. -/
theorem C7_cauchy_codes_differ :
    CauchyEncoder.encodeBytes ⟨4, 2⟩ directGF [68, 69, 65, 68, 66, 69, 69, 70] =
      .ok ⟨8, ⟨4, 2⟩, [[68, 69, 65, 68, 118, 168], [66, 69, 69, 70, 57, 86]], []⟩ ∧
    VandermondeEncoder.encodeBytes ⟨4, 2⟩ directGF [68, 69, 65, 68, 66, 69, 69, 70] =
      .ok ⟨8, ⟨4, 2⟩, [[68, 69, 65, 68, 2, 27], [66, 69, 69, 70, 56, 39]], []⟩ ∧
    ([[68, 69, 65, 68, 118, 168], [66, 69, 69, 70, 57, 86]] : List (List Nat)) ≠
      [[68, 69, 65, 68, 2, 27], [66, 69, 69, 70, 56, 39]] := by
  refine ⟨by decide, by decide, by decide⟩

/-- C7 (amended): for the Direct field and the reference encoding
`rs=4.2`, the Lagrange and Vandermonde encoders return identical streams
on every byte buffer — both compute the code columns as evaluations of
the degree-< 4 interpolating polynomial of each chunk.  (The Cauchy
variant differs, see the counterexample, and with the ExpLog field the
broken `exp` makes the Vandermonde generator singular.) -/
theorem C7_lagrange_eq_vandermonde :
    ∀ (bytes : List Nat), (∀ x ∈ bytes, x < 256) →
      LagrangeInterpolationEncoder.encodeBytes ⟨4, 2⟩ directGF bytes =
        VandermondeEncoder.encodeBytes ⟨4, 2⟩ directGF bytes := by
  intro bytes hb
  unfold LagrangeInterpolationEncoder.encodeBytes VandermondeEncoder.encodeBytes
  by_cases hlen : bytes.length = 0
  · rw [if_pos hlen, if_pos hlen]
  · rw [if_neg hlen, if_neg hlen]
    dsimp only
    have h1 : vandMat 0 4 4 directGF =
        Except.ok (Mat.mk 4 4 [[1, 0, 0, 0], [1, 1, 1, 1], [1, 2, 4, 8], [1, 3, 5, 15]]) := by
      decide
    have h2 : (Mat.mk 4 4 [[1, 0, 0, 0], [1, 1, 1, 1], [1, 2, 4, 8],
        [1, 3, 5, 15]]).invert directGF =
        Except.ok (Mat.mk 4 4 [[1, 0, 0, 0], [122, 1, 141, 246], [0, 123, 246, 141],
          [123, 123, 123, 123]]) := by
      decide
    have h3 : vandMat 4 2 4 directGF =
        Except.ok (Mat.mk 2 4 [[1, 4, 16, 64], [1, 5, 17, 85]]) := by
      decide
    have h4 : (Mat.mk 2 4 [[1, 4, 16, 64], [1, 5, 17, 85]]).mul
        (Mat.mk 4 4 [[1, 0, 0, 0], [122, 1, 141, 246], [0, 123, 246, 141],
          [123, 123, 123, 123]]) directGF =
        Mat.mk 2 4 [[27, 28, 18, 20], [28, 27, 20, 18]] := by
      decide
    rw [h1, exceptBind_ok, h2, exceptBind_ok, h3, exceptBind_ok, h4]
    unfold encodeBytesMatrix
    simp only [Except.ok.injEq, RSStream.mk.injEq]
    refine ⟨trivial, trivial, ?_, trivial⟩
    apply List.map_congr_left
    intro chunk hmem
    have hmem' : chunk ∈ chunkAcc 0 4 [] bytes := hmem
    have hcl : chunk.length = 4 :=
      chunkAcc_chunk_length bytes [] (by simp) chunk hmem'
    obtain ⟨a, b, c, d, rfl⟩ := length_four hcl
    have hent := chunkAcc_mem_entry bytes [] _ hmem'
    have hbnd : ∀ y ∈ [a, b, c, d], y < 256 := by
      intro y hy
      rcases hent y hy with h | h | h
      · simp at h
      · exact hb y h
      · omega
    exact stripe_eq a b c d (hbnd a (by simp)) (hbnd b (by simp)) (hbnd c (by simp))
      (hbnd d (by simp))

/-- C7, witness: the amended theorem applied to the "DEADBEEF" buffer. -/
theorem C7_lagrange_eq_vandermonde_witness :
    LagrangeInterpolationEncoder.encodeBytes ⟨4, 2⟩ directGF
        [68, 69, 65, 68, 66, 69, 69, 70] =
      VandermondeEncoder.encodeBytes ⟨4, 2⟩ directGF [68, 69, 65, 68, 66, 69, 69, 70] :=
  C7_lagrange_eq_vandermonde [68, 69, 65, 68, 66, 69, 69, 70] (by decide)

end Shamir
